import Mathlib

/-!
Verification development for the special-transaction core of this ledger
node: the referral-graph maintenance (`AddReferee.cpp`), and the
amendment / fee / dividend transitions (`Change.cpp`).

Shallow embedding conventions:
* Ledger account entries (`ltACCOUNT_ROOT` SLEs) are modelled by
  `AccountData`; the ledger entry store is an association list from
  account address to entry, with unique keys (the store is a key-value
  map in the source).
* Account addresses are natural numbers; address `0` is the zero
  (unset) address, matching `isNonZero`/`isZero` checks in the source.
* `uint64_t` arithmetic is modelled on `Nat` with explicit `% 2^64`
  wherever the source performs arithmetic that can overflow.
* Fallible or undefined behaviour (out-of-bounds access, division by
  zero) is modelled by `Option`: `none` marks an input on which the
  source has undefined behaviour.
-/

/-- Modulus of `uint64_t` arithmetic. -/
def U64 : Nat := 2 ^ 64

/-- Account addresses (`Account` / `RippleAddress` in the source);
`0` is the zero address. -/
abbrev Addr := Nat

/-- One `ltACCOUNT_ROOT` ledger entry, restricted to the fields the
transactors under verification read or write: `sfReferee`,
`sfReferences`, `sfBalanceVBC` and `sfBalance`. -/
structure AccountData where
  referee : Addr
  references : List Addr
  balanceVBC : Nat
  balance : Nat
deriving DecidableEq

/-- The ledger entry store restricted to account entries: an
association list address -> entry with unique keys. -/
abbrev Store := List (Addr × AccountData)

/-- Transaction engine result codes appearing in the two source files. -/
inductive TER where
  | tesSUCCESS
  | temDST_NEEDED
  | temREDUNDANT
  | tecNO_DST
  | terNO_ACCOUNT
  | tefREFEREE_EXIST
  | tefREFERENCE_EXIST
  | tefALREADY
  | temUNKNOWN
deriving DecidableEq

/-- Fetch an account entry from the store (`mEngine->entryCache
(ltACCOUNT_ROOT, getAccountRootIndex a)` in the source). -/
def lookupAcct (a : Addr) : Store → Option AccountData
  | [] => none
  | (b, d) :: s => if b = a then some d else lookupAcct a s

/-- Overwrite the entry stored under address `a` (the effect of
mutating a fetched SLE and marking it modified). -/
def updateStore : Store → Addr → AccountData → Store
  | [], _, _ => []
  | p :: s, a, d => (if p.1 = a then (a, d) else p) :: updateStore s a d

/-- Embedding of `AddReferee::doApply` (AddReferee.cpp lines 39-115).
`refereeID` is the transaction's `sfDestination` (the introducer);
`referenceID` is the transaction's source account (`mTxnAccountID`,
the account being introduced).  Returns the result code and the
resulting store; every failure leaves the store unchanged. -/
def addReferee (refereeID referenceID : Addr) (s : Store) : TER × Store :=
  if refereeID = 0 then (.temDST_NEEDED, s)
  else if referenceID = refereeID then (.temREDUNDANT, s)
  else
    match lookupAcct refereeID s, lookupAcct referenceID s with
    | none, _ => (.tecNO_DST, s)
    | some _, none => (.terNO_ACCOUNT, s)
    | some sleReferee, some sleReference =>
      if sleReference.referee ≠ 0 then (.tefREFEREE_EXIST, s)
      else if referenceID ∈ sleReferee.references then (.tefREFERENCE_EXIST, s)
      else
        let s1 := updateStore s referenceID { sleReference with referee := refereeID }
        let s2 := updateStore s1 refereeID
          { sleReferee with references := sleReferee.references ++ [referenceID] }
        (.tesSUCCESS, s2)

/-- Spec-side rendering of `linkReferral(referrer, referred, store)`
(spec section 4.1), written following the spec's six ordered
preconditions and its description of the success effect.  The
`referrer` of the spec is the source's `refereeID` (destination), the
`referred` is the source's `referenceID` (transaction source).  Used
only to be compared with `addReferee`. -/
def linkReferralSpec (referrer referred : Addr) (s : Store) : TER × Store :=
  if referrer = 0 then (.temDST_NEEDED, s)
  else if referrer = referred then (.temREDUNDANT, s)
  else
    match lookupAcct referrer s with
    | none => (.tecNO_DST, s)
    | some referrerAcc =>
      match lookupAcct referred s with
      | none => (.terNO_ACCOUNT, s)
      | some referredAcc =>
        if referredAcc.referee ≠ 0 then (.tefREFEREE_EXIST, s)
        else if referred ∈ referrerAcc.references then (.tefREFERENCE_EXIST, s)
        else
          (.tesSUCCESS,
            updateStore
              (updateStore s referred { referredAcc with referee := referrer })
              referrer
              { referrerAcc with references := referrerAcc.references ++ [referred] })

/-- Apply a list of AddReferee transactions in order; each pair is
`(refereeID, referenceID)`.  Failed transactions leave the store
unchanged, so this covers every sequence of successful applications. -/
def applyOps (ops : List (Addr × Addr)) (s : Store) : Store :=
  ops.foldl (fun st op => (addReferee op.1 op.2 st).2) s

/-- One edge of the referral relation: `referrer -> referred`,
materialized as the referred account's nonzero `referee` field. -/
def refereeEdge (s : Store) (referrer referred : Addr) : Prop :=
  referrer ≠ 0 ∧ ∃ d, lookupAcct referred s = some d ∧ d.referee = referrer

/-- The referral relation of a store contains a (directed) cycle:
some nonempty edge path leads from an account back to itself. -/
def hasCycle (s : Store) : Prop :=
  ∃ a l, List.Chain (refereeEdge s) a (l ++ [a])

/-- Embedding of `Change::applyAmendment` (Change.cpp lines 112-143).
The input is the current content of the `ltAMENDMENTS` entry (`none`
when the entry does not exist yet; `entryCreate` then yields an empty
vector); the output is the result code and the resulting `sfAmendments`
vector.  Amendment identifiers (`uint256`) are modelled as `Nat`. -/
def applyAmendment (amendment : Nat) (obj : Option (List Nat)) : TER × List Nat :=
  let amendments := obj.getD []
  if amendment ∈ amendments then (.tefALREADY, amendments)
  else (.tesSUCCESS, amendments ++ [amendment])

/-- The memoization table of `Change::getPower` (`hash_map<RippleAddress,
pair<uint64_t, uint64_t>> power`): address -> (subtreeSum, maxChildMetric). -/
def Memo := Addr → Option (Nat × Nat)

/-- The empty memoization table. -/
def emptyMemo : Memo := fun _ => none

/-- Insert (`p[r] = make_pair(sum, maxP)`) into the memo table. -/
def insertMemo (p : Memo) (r : Addr) (v : Nat × Nat) : Memo :=
  fun a => if a = r then some v else p a

/-- One step of the child loop of `Change::getPower` (Change.cpp lines
251-265), parametric in the recursive call `gp` (instantiated with
`getPower s n` below).  Children missing from the store are skipped;
for a present child the recursive value `v`, the child's `sfBalanceVBC`
`c` and the memoized `p[raChild].second` `m` are accumulated:
`sum += v + c` in `uint64_t` and `maxP = max(max(m, c), maxP)`. -/
def powerChildren (s : Store) (gp : Addr → Memo → Memo × Nat) :
    List Addr → Memo → Nat → Nat → Memo × Nat × Nat
  | [], p, sum, maxP => (p, sum, maxP)
  | c :: cs, p, sum, maxP =>
    match lookupAcct c s with
    | none => powerChildren s gp cs p sum maxP
    | some sleChild =>
      let t := gp c p
      let v := t.2
      let cbal := sleChild.balanceVBC
      let mC := ((t.1 c).getD (0, 0)).2
      powerChildren s gp cs t.1 ((sum + v + cbal) % U64) (max (max mC cbal) maxP)

/-- Embedding of `Change::getPower` (Change.cpp lines 232-268).  The
source uses unbounded native recursion; the embedding takes an explicit
fuel argument and returns `(p, 0)` on exhaustion — any fuel larger than
the depth of the referral forest makes the exhaustion branch
unreachable, and `applyDividend` below passes `s.length + 1`.  A
memoized address returns its `p[r].first` immediately; a missing
account returns `0` without memoizing; an account with an empty
`sfReferences` array memoizes `(0, 0)`. -/
def getPower (s : Store) : Nat → Addr → Memo → Memo × Nat
  | 0, r, p =>
    match p r with
    | some pr => (p, pr.1)
    | none => (p, 0)
  | n + 1, r, p =>
    match p r with
    | some pr => (p, pr.1)
    | none =>
      match lookupAcct r s with
      | none => (p, 0)
      | some sle =>
        if sle.references = [] then (insertMemo p r (0, 0), 0)
        else
          let t := powerChildren s (getPower s n) sle.references p 0 0
          (insertMemo t.1 r (t.2.1, t.2.2), t.2.1)

/-- Modelled from the spec: the fixed network constants
`SYSTEM_CURRENCY_PARTS` (the "minimum transferable unit" dust
threshold, spec section 4.3) and `VRP_INCREASE_RATE` (the "fixed
network-wide rate constant" of the primary payout) are referenced by
Change.cpp but defined outside the given sources; following the spec's
design note they are modelled as an explicit configuration value. -/
structure DivCfg where
  systemCurrencyParts : Nat
  vrpIncreaseRate : Nat

/-- Modelled from the spec: `pow(x, 1.0/3)` in Change.cpp computes a
real cube root (spec section 4.2 prescribes real arithmetic truncated
to an integer); the floating-point evaluation itself is outside a
shallow embedding, so the truncated cube root is modelled as the floor
integer cube root, computed by bisection on the invariant
`lo^3 <= n < hi^3`. -/
def icbrtGo (n : Nat) : Nat → Nat → Nat → Nat
  | 0, lo, _ => lo
  | f + 1, lo, hi =>
    if lo + 1 < hi then
      let mid := (lo + hi) / 2
      if mid * mid * mid ≤ n then icbrtGo n f mid hi else icbrtGo n f lo mid
    else lo

/-- Floor integer cube root (see `icbrtGo`). -/
def icbrt (n : Nat) : Nat := icbrtGo n 130 0 (n + 1)

/-- Wrapping `uint64_t` subtraction `a - b` (operands below `2^64`). -/
def u64sub (a b : Nat) : Nat := (a + U64 - b) % U64

/-- Enumeration of all account entries as `(address, sfBalanceVBC)`
pairs, in store order (`retrieveAccount` pushing onto `accounts` during
`visitStateItems`, Change.cpp lines 325-336). -/
def retrieveAccounts (s : Store) : List (Addr × Nat) :=
  s.map (fun p => (p.1, p.2.balanceVBC))

/-- Enumeration of the roots: accounts whose `sfReferee` is the zero
address (Change.cpp lines 331-334). -/
def rootsOf (s : Store) : List Addr :=
  s.filterMap (fun p => if p.2.referee = 0 then some p.1 else none)

/-- Insert one `(address, balance)` pair into a list sorted ascending
by balance. -/
def insertByBal (x : Addr × Nat) : List (Addr × Nat) → List (Addr × Nat)
  | [] => [x]
  | y :: ys => if x.2 < y.2 then x :: y :: ys else y :: insertByBal x ys

/-- Sort the account list ascending by `sfBalanceVBC`
(`std::sort(accounts.begin(), accounts.end(), pair_less())`,
Change.cpp line 198 and lines 270-276; `pair_less` compares the
balances only, so the order of balance ties is unspecified in the
source and fixed arbitrarily by the model). -/
def sortByBal (l : List (Addr × Nat)) : List (Addr × Nat) :=
  l.foldr insertByBal []

/-- The rank loop of `Change::applyDividend` from the second account on
(Change.cpp lines 209-215): `r` increments exactly when the current
balance strictly exceeds the previous one, otherwise stays.  `r` is the
rank of the previous account and `prev` its balance. -/
def ranksFrom (r prev : Nat) : List Nat → List Nat
  | [] => []
  | b :: bs =>
    let r2 := if prev < b then r + 1 else r
    r2 :: ranksFrom r2 b bs

/-- Dense ranks of a balance list sorted ascending: the first account
gets rank 1 (`int r = 1; rank[accounts[0].first] = ...`, Change.cpp
lines 205-206), the rest follow `ranksFrom`. -/
def ranksOf : List Nat → List Nat
  | [] => []
  | b :: bs => 1 :: ranksFrom 1 b bs

/-- Memo lookup with the C++ `operator[]` default: an address absent
from the `power` map reads as the default-constructed `(0, 0)`. -/
def powerOf (p : Memo) (a : Addr) : Nat × Nat := (p a).getD (0, 0)

/-- The power map built by `applyDividend`: `getPower` folded over the
roots (Change.cpp lines 200-202), with fuel `s.length + 1`. -/
def powerMapOf (s : Store) : Memo :=
  (rootsOf s).foldl (fun p r => (getPower s (s.length + 1) r p).1) emptyMemo

/-- The per-account power metric stored as the second component of the
`rank` map (Change.cpp lines 206 and 212):
`power[a].first - power[a].second + pow(power[a].second, 1.0/3)`, with
`uint64_t` wrapping subtraction and the truncated cube root. -/
def powerMetricOf (s : Store) (a : Addr) : Nat :=
  (u64sub (powerOf (powerMapOf s) a).1 (powerOf (powerMapOf s) a).2
    + icbrt (powerOf (powerMapOf s) a).2) % U64

/-- The sorted account list of `applyDividend`. -/
def sortedAccountsOf (s : Store) : List (Addr × Nat) :=
  sortByBal (retrieveAccounts s)

/-- The rank-sum denominator (`int sum`, accumulated as `sum += r` over
every account including the first, Change.cpp lines 207 and 213). -/
def sumOfRanksOf (s : Store) : Nat :=
  (ranksOf ((sortedAccountsOf s).map (fun x => x.2))).sum

/-- The power denominator (`uint64_t sumPower`, accumulated from
`power[a].second` — the maxChildMetric, not the power metric — over
every account, Change.cpp lines 208 and 214), with `uint64_t`
wrapping addition. -/
def sumPowerOf (s : Store) : Nat :=
  (sortedAccountsOf s).foldl
    (fun acc x => (acc + (powerOf (powerMapOf s) x.1).2) % U64) 0

/-- The `rank` table of `applyDividend`: every account paired with its
dense rank and its power metric (Change.cpp lines 204-215). -/
def rankTableOf (s : Store) : List (Addr × Nat × Nat) :=
  ((sortedAccountsOf s).zip (ranksOf ((sortedAccountsOf s).map (fun x => x.2)))).map
    (fun x => (x.1.1, x.2, powerMetricOf s x.1.1))

/-- The per-account secondary payout `divVBC = divVBCbyRank +
divVBCbyPower` of the `dividend_account` functor (Change.cpp lines
299-303), with `uint64_t` wrapping multiplication; `v = (rank,
powerMetric)` is the account's rank-table entry value. -/
def divVBCOf (totalDividendVBC totalPart totalPower : Nat) (v : Nat × Nat) : Nat :=
  let totalDivVBCbyRank := totalDividendVBC / 2
  let totalDivVBCbyPower := totalDividendVBC - totalDivVBCbyRank
  let divVBCbyRank := totalDivVBCbyRank * v.1 % U64 / totalPart
  let divVBCbyPower := totalDivVBCbyPower * v.2 % U64 / totalPower
  (divVBCbyRank + divVBCbyPower) % U64

/-- Embedding of `dividend_account::operator()` (Change.cpp lines
297-322).  State: `(store, actualTotalDividend, actualTotalDividendVBC)`.
If the account is missing nothing happens; otherwise the secondary
balance is credited by `divVBC` exactly when `divVBC >=
SYSTEM_CURRENCY_PARTS` (and only then accumulated into the secondary
total), while the primary payout `prevBalanceVBC * VRP_INCREASE_RATE` —
computed from the secondary balance read before the secondary credit —
is always credited and always accumulated.  The disabled root-account
check (`if (1)`) is preserved: every account is paid. -/
def dividend_account (cfg : DivCfg) (totalDividendVBC totalPart totalPower : Nat)
    (st : Store × Nat × Nat) (v : Addr × Nat × Nat) : Store × Nat × Nat :=
  let divVBC := divVBCOf totalDividendVBC totalPart totalPower v.2
  match lookupAcct v.1 st.1 with
  | none => st
  | some sleDst =>
    let prevBalanceVBC := sleDst.balanceVBC
    let newVBC := if cfg.systemCurrencyParts ≤ divVBC
      then (prevBalanceVBC + divVBC) % U64 else prevBalanceVBC
    let actVBC := if cfg.systemCurrencyParts ≤ divVBC
      then (st.2.2 + divVBC) % U64 else st.2.2
    let div := prevBalanceVBC * cfg.vrpIncreaseRate % U64
    let newBal := (sleDst.balance + div) % U64
    (updateStore st.1 v.1
      { sleDst with balanceVBC := newVBC, balance := newBal },
      (st.2.1 + div) % U64, actVBC)

/-- Embedding of `Change::applyDividend` (Change.cpp lines 174-230),
restricted to the distribution itself (the `ltDIVIDEND` audit entry
rewrite is the returned pair of totals).  Returns `none` exactly on the
inputs where the source has undefined behaviour: `accounts[0]` is read
unconditionally (out-of-bounds when the ledger holds no account), and
`dividend_account` divides by `totalPower` with no zero guard (division
by zero when `sumPower` is zero, reached for every account since the
rank table is then nonempty).  Otherwise returns the final store and
the two actually-distributed totals
`(actualTotalDividend, actualTotalDividendVBC)`. -/
def applyDividend (cfg : DivCfg) (dividendCoinsVBC : Nat) (s : Store) :
    Option (Store × Nat × Nat) :=
  match sortedAccountsOf s with
  | [] => none
  | _ :: _ =>
    if sumPowerOf s = 0 then none
    else
      some ((rankTableOf s).foldl
        (dividend_account cfg dividendCoinsVBC (sumOfRanksOf s) (sumPowerOf s))
        (s, 0, 0))

/-- The list of secondary payouts actually credited by a run of the
`dividend_account` functor over `table` against store `s`: those whose
account is present and whose `divVBC` clears the dust threshold. -/
def creditedVBC (cfg : DivCfg) (totalDividendVBC totalPart totalPower : Nat)
    (s : Store) (table : List (Addr × Nat × Nat)) : List Nat :=
  table.filterMap (fun v =>
    let d := divVBCOf totalDividendVBC totalPart totalPower v.2
    if (lookupAcct v.1 s).isSome ∧ cfg.systemCurrencyParts ≤ d
    then some d else none)

/-- The `sfBalanceVBC` of an account, `0` when the account is absent
(the value `getPower` reads for a present child). -/
def balVBCOf (s : Store) (c : Addr) : Nat :=
  ((lookupAcct c s).map AccountData.balanceVBC).getD 0

/-- Maximum of a list of naturals (`0` for the empty list). -/
def listMax (l : List Nat) : Nat := l.foldr max 0

/-! ### Store lemmas -/

theorem lookupAcct_updateStore (s : Store) (a x : Addr) (d : AccountData) :
    lookupAcct x (updateStore s a d) =
      if x = a then (lookupAcct a s).map (fun _ => d) else lookupAcct x s := by
  induction s with
  | nil => simp [updateStore, lookupAcct]
  | cons p s ih =>
    obtain ⟨b, e⟩ := p
    simp only [updateStore]
    by_cases h1 : b = a
    · subst h1
      rw [if_pos (rfl : (b, e).1 = b)]
      by_cases h2 : x = b
      · subst h2; simp [lookupAcct]
      · have hbx : ¬b = x := fun h => h2 h.symm
        simp only [lookupAcct, if_neg hbx, ih, if_neg h2]
    · rw [if_neg (h1 : ¬(b, e).1 = a)]
      by_cases h2 : x = a
      · subst h2
        have hba : ¬b = x := h1
        simp only [lookupAcct, if_neg hba, ih, if_pos rfl]
      · simp only [lookupAcct, ih, if_neg h2]

theorem lookupAcct_updateStore_isSome (s : Store) (a x : Addr) (d : AccountData) :
    (lookupAcct x (updateStore s a d)).isSome = (lookupAcct x s).isSome := by
  rw [lookupAcct_updateStore]
  by_cases h : x = a
  · subst h; cases lookupAcct x s <;> simp
  · simp [h]

/-! ### C5 — linkReferral precondition order and effects -/

/-- C5: `AddReferee::doApply` evaluates the six preconditions of
`linkReferral(referrer, referred, store)` in the stated order, returns
the distinct failure of the first violated one with the store
unchanged, and on success sets `referred.referee = referrer` and
appends `referred` to `referrer.references`, with no other store
change: the source transactor coincides with the spec-side
`linkReferralSpec` on every input. -/
theorem addReferee_eq_linkReferralSpec (referrer referred : Addr) (s : Store) :
    addReferee referrer referred s = linkReferralSpec referrer referred s := by
  unfold addReferee linkReferralSpec
  by_cases h1 : referrer = 0
  · simp [h1]
  · by_cases h2 : referred = referrer
    · have h2s : referrer = referred := h2.symm
      rw [if_neg h1, if_neg h1, if_pos h2, if_pos h2s]
    · have h2s : ¬referrer = referred := fun h => h2 h.symm
      simp only [if_neg h1, if_neg h2, if_neg h2s]
      cases hA : lookupAcct referrer s <;> cases hB : lookupAcct referred s <;> simp

/-! ### C9 — amendment activation -/

/-- C9: amendment activation fetches or creates the AmendmentSet entry;
an already-present identifier fails with AlreadyEnacted and leaves the
set unchanged (in particular activating the same identifier twice
yields AlreadyEnacted on the second call with no change to the set's
size); otherwise the identifier is appended, so the set only grows. -/
theorem applyAmendment_spec (amendment : Nat) (obj : Option (List Nat)) :
    (amendment ∈ obj.getD [] →
      applyAmendment amendment obj = (.tefALREADY, obj.getD [])) ∧
    (amendment ∉ obj.getD [] →
      applyAmendment amendment obj = (.tesSUCCESS, obj.getD [] ++ [amendment])) ∧
    (applyAmendment amendment (some (applyAmendment amendment obj).2)).1 = .tefALREADY ∧
    (applyAmendment amendment (some (applyAmendment amendment obj).2)).2.length
      = (applyAmendment amendment obj).2.length ∧
    (obj.getD []).length ≤ (applyAmendment amendment obj).2.length := by
  by_cases h : amendment ∈ obj.getD [] <;>
    simp [applyAmendment, h]

/-- Witness for C9 at concrete inputs: activating amendment `5` on a
set already holding it fails with AlreadyEnacted and leaves `[5]`;
activating it on a missing entry succeeds with `[5]`. -/
theorem applyAmendment_spec_witness :
    applyAmendment 5 (some [5]) = (.tefALREADY, [5]) ∧
    applyAmendment 5 none = (.tesSUCCESS, [5]) :=
  ⟨(applyAmendment_spec 5 (some [5])).1 (by decide),
   (applyAmendment_spec 5 none).2.1 (by decide)⟩

/-! ### C1 — the claimed forest invariant -/

/-- Initial store for the cycle scenario: two funded accounts, no
referee set anywhere. -/
def s0Init : Store := [(1, ⟨0, [], 0, 0⟩), (2, ⟨0, [], 0, 0⟩)]

/-- C1 counterexample: starting from a store in which no account has a
referee set, the two-transaction sequence `addReferee 2 1` (account 1
declares referrer 2) followed by `addReferee 1 2` (account 2 declares
referrer 1) both succeed, and the resulting referral relation contains
a cycle (1 -> 2 -> 1): the claimed forest invariant is false. -/
theorem forest_invariant_counterexample :
    (∀ p ∈ s0Init, p.2.referee = 0) ∧
    (addReferee 2 1 s0Init).1 = TER.tesSUCCESS ∧
    (addReferee 1 2 (addReferee 2 1 s0Init).2).1 = TER.tesSUCCESS ∧
    hasCycle (addReferee 1 2 (addReferee 2 1 s0Init).2).2 := by
  refine ⟨by decide, by decide, by decide, 1, [2], ?_⟩
  refine List.Chain.cons ?_ (List.Chain.cons ?_ List.Chain.nil)
  · exact ⟨by decide, ⟨1, [1], 0, 0⟩, by decide, rfl⟩
  · exact ⟨by decide, ⟨2, [2], 0, 0⟩, by decide, rfl⟩

theorem addReferee_referee_preserved (x y : Addr) (s : Store) (a : Addr)
    (d : AccountData) (hd : lookupAcct a s = some d) (hnz : d.referee ≠ 0) :
    ∃ d2, lookupAcct a (addReferee x y s).2 = some d2 ∧ d2.referee = d.referee := by
  unfold addReferee
  by_cases h1 : x = 0
  · exact ⟨d, by simp [h1, hd], rfl⟩
  · by_cases h2 : y = x
    · exact ⟨d, by simp [h1, h2, hd], rfl⟩
    · simp only [if_neg h1, if_neg h2]
      cases hA : lookupAcct x s with
      | none => exact ⟨d, by simp [hd], rfl⟩
      | some sleReferee =>
        cases hB : lookupAcct y s with
        | none => exact ⟨d, by simp [hd], rfl⟩
        | some sleReference =>
          by_cases h5 : sleReference.referee ≠ 0
          · exact ⟨d, by simp [h5, hd], rfl⟩
          · by_cases h6 : y ∈ sleReferee.references
            · exact ⟨d, by simp [h5, h6, hd], rfl⟩
            · simp only [h5, h6, if_neg, if_false, ite_false, not_false_iff]
              by_cases hay : a = y
              · exfalso
                apply hnz
                rw [hay, hB] at hd
                cases hd
                simpa using h5
              · by_cases hax : a = x
                · subst hax
                  refine ⟨{ sleReferee with references := sleReferee.references ++ [y] },
                    ?_, ?_⟩
                  · simp only [lookupAcct_updateStore, if_pos rfl, if_neg hay, hA]
                    rfl
                  · rw [hA] at hd; cases hd; rfl
                · exact ⟨d, by
                    simp only [lookupAcct_updateStore, if_neg hax, if_neg hay, hd], rfl⟩

/-- C1 amended: along every sequence of AddReferee transactions from
any store, an account's nonzero `referee` is never changed or cleared
(write-once), and in every store each account has at most one referrer
edge pointing at it; the no-cycle half of the original claim is false
(see the counterexample). -/
theorem referral_relation_amended :
    (∀ (ops : List (Addr × Addr)) (s : Store) (a : Addr) (d : AccountData),
      lookupAcct a s = some d → d.referee ≠ 0 →
      ∃ d2, lookupAcct a (applyOps ops s) = some d2 ∧ d2.referee = d.referee) ∧
    (∀ (s : Store) (x y a : Addr),
      refereeEdge s x a → refereeEdge s y a → x = y) := by
  constructor
  · intro ops
    induction ops with
    | nil => exact fun s a d hd _ => ⟨d, hd, rfl⟩
    | cons op ops ih =>
      intro s a d hd hnz
      obtain ⟨d2, hd2, he⟩ := addReferee_referee_preserved op.1 op.2 s a d hd hnz
      obtain ⟨d3, hd3, he3⟩ := ih (addReferee op.1 op.2 s).2 a d2 hd2 (he ▸ hnz)
      exact ⟨d3, hd3, he3.trans he⟩
  · rintro s x y a ⟨-, d1, h1, e1⟩ ⟨-, d2, h2, e2⟩
    rw [h1] at h2
    cases h2
    rw [← e1, ← e2]

/-! ### C3 — memoized power computation -/

theorem powerChildren_preserve (s : Store) (gp : Addr → Memo → Memo × Nat)
    (hgp : ∀ c q a v, q a = some v → (gp c q).1 a = some v) :
    ∀ (cs : List Addr) (p : Memo) (sum maxP : Nat) (a : Addr) (v : Nat × Nat),
      p a = some v → (powerChildren s gp cs p sum maxP).1 a = some v := by
  intro cs
  induction cs with
  | nil => intro p sum maxP a v h; simpa [powerChildren] using h
  | cons c cs ih =>
    intro p sum maxP a v h
    simp only [powerChildren]
    cases hc : lookupAcct c s with
    | none => exact ih p sum maxP a v h
    | some sleChild => exact ih _ _ _ a v (hgp c p a v h)

theorem getPower_preserve (s : Store) :
    ∀ (fuel : Nat) (x : Addr) (p : Memo) (a : Addr) (v : Nat × Nat),
      p a = some v → (getPower s fuel x p).1 a = some v := by
  intro fuel
  induction fuel with
  | zero =>
    intro x p a v h
    unfold getPower
    cases hx : p x <;> simpa using h
  | succ n ih =>
    intro x p a v h
    unfold getPower
    cases hx : p x with
    | some pr => simpa using h
    | none =>
      cases hs : lookupAcct x s with
      | none => simpa using h
      | some sle =>
        by_cases hr : sle.references = []
        · simp only [if_pos hr]
          by_cases hax : a = x
          · subst hax; rw [hx] at h; cases h
          · simpa [insertMemo, hax] using h
        · simp only [if_neg hr]
          by_cases hax : a = x
          · subst hax; rw [hx] at h; cases h
          · have hpc := powerChildren_preserve s (getPower s n)
              (fun c q a2 v2 h2 => ih c q a2 v2 h2)
              sle.references p 0 0 a v h
            simpa [insertMemo, hax] using hpc

theorem getPower_memoizes (s : Store) (n : Nat) (x : Addr) (p : Memo)
    (sle : AccountData) (hs : lookupAcct x s = some sle) :
    ∃ pr, (getPower s (n + 1) x p).1 x = some pr ∧
      (getPower s (n + 1) x p).2 = pr.1 := by
  unfold getPower
  cases hx : p x with
  | some pr => exact ⟨pr, by simpa using hx, by simp⟩
  | none =>
    rw [hs]
    by_cases hr : sle.references = []
    · exact ⟨(0, 0), by simp [hr, insertMemo], by simp [hr]⟩
    · refine ⟨((powerChildren s (getPower s n) sle.references p 0 0).2.1,
        (powerChildren s (getPower s n) sle.references p 0 0).2.2), ?_, ?_⟩ <;>
        simp [hr, insertMemo]

theorem foldl_max_eq (f : Addr → Nat) :
    ∀ (cs : List Addr) (i : Nat),
      cs.foldl (fun acc c => max (f c) acc) i = max i (listMax (cs.map f)) := by
  intro cs
  induction cs with
  | nil => intro i; simp [listMax]
  | cons c cs ih =>
    intro i
    simp only [List.foldl_cons, List.map_cons, listMax, List.foldr_cons, ih]
    have h1 := Nat.max_comm (f c) i
    have h2 := Nat.max_assoc i (f c) (List.foldr max 0 (cs.map f))
    omega

theorem U64_pos : 0 < U64 := by decide

theorem powerChildren_spec (s : Store) (m : Nat) :
    ∀ (cs : List Addr) (p : Memo) (sum maxP : Nat),
      (∀ c ∈ cs, lookupAcct c s ≠ none) → sum < U64 →
      (∀ c ∈ cs, ∃ pr,
        (powerChildren s (getPower s (m + 1)) cs p sum maxP).1 c = some pr) ∧
      (powerChildren s (getPower s (m + 1)) cs p sum maxP).2.1 =
        (sum + (cs.map (fun c =>
          (((powerChildren s (getPower s (m + 1)) cs p sum maxP).1 c).getD (0, 0)).1
            + balVBCOf s c)).sum) % U64 ∧
      (powerChildren s (getPower s (m + 1)) cs p sum maxP).2.2 =
        cs.foldl (fun acc c =>
          max (max
            (((powerChildren s (getPower s (m + 1)) cs p sum maxP).1 c).getD (0, 0)).2
            (balVBCOf s c)) acc) maxP := by
  intro cs
  induction cs with
  | nil =>
    intro p sum maxP _ hsum
    refine ⟨by simp, ?_, by simp [powerChildren]⟩
    simpa [powerChildren] using (Nat.mod_eq_of_lt hsum).symm
  | cons c cs ih =>
    intro p sum maxP hpres hsum
    obtain ⟨sleChild, hc⟩ : ∃ y, lookupAcct c s = some y := by
      cases hlc : lookupAcct c s with
      | none => exact absurd hlc (hpres c (List.mem_cons_self c cs))
      | some y => exact ⟨y, rfl⟩
    obtain ⟨pr, hprc, hprv⟩ := getPower_memoizes s m c p sleChild hc
    have hred : powerChildren s (getPower s (m + 1)) (c :: cs) p sum maxP =
        powerChildren s (getPower s (m + 1)) cs ((getPower s (m + 1) c p).1)
          ((sum + (getPower s (m + 1) c p).2 + sleChild.balanceVBC) % U64)
          (max (max (((getPower s (m + 1) c p).1 c).getD (0, 0)).2
            sleChild.balanceVBC) maxP) := by
      simp only [powerChildren, hc]
    have hpres2 : ∀ x ∈ cs, lookupAcct x s ≠ none :=
      fun x hx => hpres x (List.mem_cons_of_mem c hx)
    have hsum2 : (sum + (getPower s (m + 1) c p).2 + sleChild.balanceVBC) % U64 < U64 :=
      Nat.mod_lt _ U64_pos
    obtain ⟨ihmem, ihsum, ihmax⟩ := ih ((getPower s (m + 1) c p).1)
      ((sum + (getPower s (m + 1) c p).2 + sleChild.balanceVBC) % U64)
      (max (max (((getPower s (m + 1) c p).1 c).getD (0, 0)).2
        sleChild.balanceVBC) maxP) hpres2 hsum2
    have hkeep : (powerChildren s (getPower s (m + 1)) (c :: cs) p sum maxP).1 c
        = some pr := by
      rw [hred]
      exact powerChildren_preserve s (getPower s (m + 1))
        (fun c2 q a2 v2 h2 => getPower_preserve s (m + 1) c2 q a2 v2 h2)
        cs _ _ _ c pr hprc
    have hbal : balVBCOf s c = sleChild.balanceVBC := by
      simp [balVBCOf, hc]
    refine ⟨?_, ?_, ?_⟩
    · intro x hx
      rcases List.mem_cons.mp hx with hxc | hxcs
      · exact ⟨pr, hxc ▸ hkeep⟩
      · rw [hred]; exact ihmem x hxcs
    · rw [hred, ihsum, ← hred]
      rw [List.map_cons, List.sum_cons, hkeep, hbal, Option.getD_some,
        Nat.mod_add_mod, hprv]
      congr 1
      omega
    · rw [hred, ihmax, ← hred]
      rw [List.foldl_cons, hkeep, hbal, hprc]

/-- Scenario A of the spec: account `R` (address 1, no referee, child
list `[2]`) and account `C` (address 2, referee 1, balanceVBC 100, no
children). -/
def scenAStore : Store := [(1, ⟨0, [2], 0, 0⟩), (2, ⟨1, [], 100, 0⟩)]

/-- C3: the recursive power computation of `Change::getPower`.  An
account with an empty references list is memoized as `(0, 0)`; a
memoized account returns its stored value immediately with the memo
table unchanged (each account is derived at most once per run); for an
account with children all present in the store, the memoized pair is
`(subtreeSum, maxChildMetric)` where `subtreeSum` is the sum over the
children `c` of `power(c).subtreeSum + balanceVBC(c)` (in `uint64_t`,
hence modulo `2^64`, the modulus vanishing whenever the sum is
representable) and `maxChildMetric` is the maximum over the children
`c` of `max(power(c).maxChildMetric, balanceVBC(c))`; and in Scenario
A, `power(C) = (0, 0)` and `power(R) = (100, 100)`. -/
theorem getPower_spec :
    (∀ (s : Store) (fuel : Nat) (r : Addr) (p : Memo) (sle : AccountData),
      p r = none → lookupAcct r s = some sle → sle.references = [] →
      getPower s (fuel + 1) r p = (insertMemo p r (0, 0), 0)) ∧
    (∀ (s : Store) (fuel : Nat) (r : Addr) (p : Memo) (pr : Nat × Nat),
      p r = some pr → getPower s fuel r p = (p, pr.1)) ∧
    (∀ (s : Store) (n : Nat) (r : Addr) (p : Memo) (sle : AccountData),
      p r = none → lookupAcct r s = some sle → sle.references ≠ [] →
      (∀ c ∈ sle.references, lookupAcct c s ≠ none) → r ∉ sle.references →
      ∃ S M, (getPower s (n + 2) r p).1 r = some (S, M) ∧
        (getPower s (n + 2) r p).2 = S ∧
        S = (sle.references.map (fun c =>
          (((getPower s (n + 2) r p).1 c).getD (0, 0)).1 + balVBCOf s c)).sum % U64 ∧
        ((sle.references.map (fun c =>
          (((getPower s (n + 2) r p).1 c).getD (0, 0)).1 + balVBCOf s c)).sum < U64 →
          S = (sle.references.map (fun c =>
            (((getPower s (n + 2) r p).1 c).getD (0, 0)).1 + balVBCOf s c)).sum) ∧
        M = listMax (sle.references.map (fun c =>
          max (((getPower s (n + 2) r p).1 c).getD (0, 0)).2 (balVBCOf s c))) ∧
        (∀ c ∈ sle.references, ((getPower s (n + 2) r p).1 c).isSome)) ∧
    ((getPower scenAStore 3 1 emptyMemo).1 1 = some (100, 100) ∧
      (getPower scenAStore 3 1 emptyMemo).1 2 = some (0, 0) ∧
      (getPower scenAStore 3 1 emptyMemo).2 = 100) := by
  refine ⟨?_, ?_, ?_, by decide, by decide, by decide⟩
  · intro s fuel r p sle hp hs hr
    simp only [getPower, hp, hs, if_pos hr]
  · intro s fuel r p pr hp
    cases fuel <;> simp only [getPower, hp]
  · intro s n r p sle hp hs hr hpres hnotin
    have hred : getPower s (n + 2) r p =
        (insertMemo (powerChildren s (getPower s (n + 1)) sle.references p 0 0).1 r
          ((powerChildren s (getPower s (n + 1)) sle.references p 0 0).2.1,
           (powerChildren s (getPower s (n + 1)) sle.references p 0 0).2.2),
         (powerChildren s (getPower s (n + 1)) sle.references p 0 0).2.1) := by
      show getPower s (n + 1 + 1) r p = _
      simp only [getPower, hp, hs, if_neg hr]
    obtain ⟨hmem, hsumeq, hmaxeq⟩ :=
      powerChildren_spec s n sle.references p 0 0 hpres U64_pos
    have hface : ∀ c ∈ sle.references,
        (getPower s (n + 2) r p).1 c =
          (powerChildren s (getPower s (n + 1)) sle.references p 0 0).1 c := by
      intro c hcmem
      rw [hred]
      have hcr : ¬c = r := fun h => hnotin (h ▸ hcmem)
      simp [insertMemo, hcr]
    have hmapS : sle.references.map (fun c =>
          (((getPower s (n + 2) r p).1 c).getD (0, 0)).1 + balVBCOf s c)
        = sle.references.map (fun c =>
          ((((powerChildren s (getPower s (n + 1)) sle.references p 0 0).1 c).getD
            (0, 0)).1 + balVBCOf s c)) :=
      List.map_congr_left (fun c hc => by rw [hface c hc])
    have hmapM : sle.references.map (fun c =>
          max (((getPower s (n + 2) r p).1 c).getD (0, 0)).2 (balVBCOf s c))
        = sle.references.map (fun c =>
          max (((powerChildren s (getPower s (n + 1)) sle.references p 0 0).1 c).getD
            (0, 0)).2 (balVBCOf s c)) :=
      List.map_congr_left (fun c hc => by rw [hface c hc])
    refine ⟨(powerChildren s (getPower s (n + 1)) sle.references p 0 0).2.1,
      (powerChildren s (getPower s (n + 1)) sle.references p 0 0).2.2,
      ?_, ?_, ?_, ?_, ?_, ?_⟩
    · rw [hred]; simp [insertMemo]
    · rw [hred]
    · rw [hmapS, hsumeq, Nat.zero_add]
    · intro hlt
      rw [hmapS, hsumeq, Nat.zero_add, Nat.mod_eq_of_lt (hmapS ▸ hlt)]
    · rw [hmapM, hmaxeq]
      have hfold := foldl_max_eq (fun c =>
        max (((powerChildren s (getPower s (n + 1)) sle.references p 0 0).1 c).getD
          (0, 0)).2 (balVBCOf s c)) sle.references 0
      rw [hfold]
      exact (Nat.zero_max _).symm ▸ rfl
    · intro c hc
      obtain ⟨pr, hpr⟩ := hmem c hc
      rw [hface c hc, hpr]
      rfl

/-- Witness for C3 at the Scenario A store: the empty-references case
at account 2, the memo-hit case, and the full recursive equations at
account 1. -/
theorem getPower_spec_witness :
    getPower scenAStore 1 2 emptyMemo = (insertMemo emptyMemo 2 (0, 0), 0) ∧
    getPower scenAStore 0 1 (insertMemo emptyMemo 1 (3, 4))
      = (insertMemo emptyMemo 1 (3, 4), 3) ∧
    (∃ S M, (getPower scenAStore 3 1 emptyMemo).1 1 = some (S, M) ∧
      (getPower scenAStore 3 1 emptyMemo).2 = S ∧
      S = (([2] : List Addr).map (fun c =>
        (((getPower scenAStore 3 1 emptyMemo).1 c).getD (0, 0)).1
          + balVBCOf scenAStore c)).sum % U64 ∧
      ((([2] : List Addr).map (fun c =>
        (((getPower scenAStore 3 1 emptyMemo).1 c).getD (0, 0)).1
          + balVBCOf scenAStore c)).sum < U64 →
        S = (([2] : List Addr).map (fun c =>
          (((getPower scenAStore 3 1 emptyMemo).1 c).getD (0, 0)).1
            + balVBCOf scenAStore c)).sum) ∧
      M = listMax (([2] : List Addr).map (fun c =>
        max (((getPower scenAStore 3 1 emptyMemo).1 c).getD (0, 0)).2
          (balVBCOf scenAStore c))) ∧
      (∀ c ∈ ([2] : List Addr), ((getPower scenAStore 3 1 emptyMemo).1 c).isSome)) :=
  ⟨getPower_spec.1 scenAStore 0 2 emptyMemo ⟨1, [], 100, 0⟩ rfl (by decide) rfl,
   getPower_spec.2.1 scenAStore 0 1 (insertMemo emptyMemo 1 (3, 4)) (3, 4) rfl,
   getPower_spec.2.2.1 scenAStore 1 1 emptyMemo ⟨0, [2], 0, 0⟩ rfl (by decide)
     (by decide) (by decide) (by decide)⟩

/-! ### C4 — dense ranking -/

theorem ranksFrom_length : ∀ (bs : List Nat) (r prev : Nat),
    (ranksFrom r prev bs).length = bs.length := by
  intro bs
  induction bs with
  | nil => intro r prev; rfl
  | cons b bs ih => intro r prev; simp [ranksFrom, ih]

theorem ranksFrom_succ : ∀ (bs : List Nat) (r prev i : Nat), i + 1 < bs.length →
    (ranksFrom r prev bs).getD (i + 1) 0 =
      if bs.getD i 0 < bs.getD (i + 1) 0 then (ranksFrom r prev bs).getD i 0 + 1
      else (ranksFrom r prev bs).getD i 0 := by
  intro bs
  induction bs with
  | nil => intro r prev i h; cases h
  | cons b bs ih =>
    intro r prev i h
    match i with
    | 0 =>
      match bs, h with
      | b2 :: bs2, _ =>
        simp [ranksFrom, List.getD_cons_succ, List.getD_cons_zero]
    | k + 1 =>
      have h2 : k + 1 < bs.length := by simpa using h
      simp only [ranksFrom, List.getD_cons_succ]
      exact ih _ b k h2

theorem ranksOf_succ (bs : List Nat) (i : Nat) (h : i + 1 < bs.length) :
    (ranksOf bs).getD (i + 1) 0 =
      if bs.getD i 0 < bs.getD (i + 1) 0 then (ranksOf bs).getD i 0 + 1
      else (ranksOf bs).getD i 0 := by
  match bs, h with
  | b :: bs, h =>
    match i with
    | 0 =>
      match bs, h with
      | b2 :: bs2, _ =>
        simp [ranksOf, ranksFrom, List.getD_cons_succ, List.getD_cons_zero]
    | k + 1 =>
      have h2 : k + 1 < bs.length := by simpa using h
      simp only [ranksOf, List.getD_cons_succ]
      exact ranksFrom_succ bs 1 b k h2

theorem ranksOf_mono (bs : List Nat) :
    ∀ (d i : Nat), i + d < bs.length →
      (ranksOf bs).getD i 0 ≤ (ranksOf bs).getD (i + d) 0 := by
  intro d
  induction d with
  | zero => intro i _; exact Nat.le_refl _
  | succ k ih =>
    intro i h
    have h1 : i + k + 1 < bs.length := by omega
    have h2 := ih i (by omega)
    have h3 := ranksOf_succ bs (i + k) h1
    have : (ranksOf bs).getD (i + k) 0 ≤ (ranksOf bs).getD (i + k + 1) 0 := by
      rw [h3]; split <;> omega
    have he : i + (k + 1) = i + k + 1 := by omega
    rw [he]
    omega

theorem sorted_getD_mono (bs : List Nat)
    (hs : ∀ i, i + 1 < bs.length → bs.getD i 0 ≤ bs.getD (i + 1) 0) :
    ∀ (d i : Nat), i + d < bs.length → bs.getD i 0 ≤ bs.getD (i + d) 0 := by
  intro d
  induction d with
  | zero => intro i _; exact Nat.le_refl _
  | succ k ih =>
    intro i h
    have h2 := ih i (by omega)
    have h3 := hs (i + k) (by omega)
    have he : i + (k + 1) = i + k + 1 := by omega
    rw [he]
    omega

theorem ranks_eq_of_flat (bs : List Nat)
    (hs : ∀ i, i + 1 < bs.length → bs.getD i 0 ≤ bs.getD (i + 1) 0) (i : Nat) :
    ∀ (d : Nat), i + d < bs.length → bs.getD i 0 = bs.getD (i + d) 0 →
      (ranksOf bs).getD (i + d) 0 = (ranksOf bs).getD i 0 := by
  intro d
  induction d with
  | zero => intro _ _; rfl
  | succ k ih =>
    intro h heq
    have hik : i + k + 1 < bs.length := by omega
    have hle1 : bs.getD i 0 ≤ bs.getD (i + k) 0 := sorted_getD_mono bs hs k i (by omega)
    have hle2 : bs.getD (i + k) 0 ≤ bs.getD (i + k + 1) 0 := hs (i + k) hik
    have hei : i + (k + 1) = i + k + 1 := by omega
    rw [hei] at heq
    have heqk : bs.getD i 0 = bs.getD (i + k) 0 := by omega
    have hrk := ih (by omega) heqk
    have hstep := ranksOf_succ bs (i + k) hik
    rw [hei, hstep, if_neg (by omega)]
    exact hrk

/-- C4: the dense-rank assignment of `applyDividend` over a non-empty
account list sorted ascending by secondary balance.  The rank list has
one rank per account; rank 1 goes to the first (lowest-balance)
account; the rank increments by exactly 1 when the current balance
strictly exceeds the previous one, otherwise stays equal; and under
sortedness, `balance(x) < balance(y)` implies `rank(x) <= rank(y)` and
equal balances receive equal ranks. -/
theorem ranksOf_spec (bs : List Nat) (hne : bs ≠ []) :
    (ranksOf bs).length = bs.length ∧
    (ranksOf bs).getD 0 0 = 1 ∧
    (∀ i, i + 1 < bs.length →
      (ranksOf bs).getD (i + 1) 0 =
        if bs.getD i 0 < bs.getD (i + 1) 0 then (ranksOf bs).getD i 0 + 1
        else (ranksOf bs).getD i 0) ∧
    ((∀ i, i + 1 < bs.length → bs.getD i 0 ≤ bs.getD (i + 1) 0) →
      (∀ i j, i < bs.length → j < bs.length → bs.getD i 0 < bs.getD j 0 →
        (ranksOf bs).getD i 0 ≤ (ranksOf bs).getD j 0) ∧
      (∀ i j, i < bs.length → j < bs.length → bs.getD i 0 = bs.getD j 0 →
        (ranksOf bs).getD i 0 = (ranksOf bs).getD j 0)) := by
  obtain ⟨b, bs2, rfl⟩ : ∃ b bs2, bs = b :: bs2 := by
    cases bs with
    | nil => exact absurd rfl hne
    | cons b bs2 => exact ⟨b, bs2, rfl⟩
  refine ⟨by simp [ranksOf, ranksFrom_length], rfl, ranksOf_succ _, ?_⟩
  intro hs
  constructor
  · intro i j hi hj hlt
    have hij : i < j := by
      by_contra hnij
      have hji : j + (i - j) = i := by omega
      have := sorted_getD_mono _ hs (i - j) j (by omega)
      rw [hji] at this
      omega
    have := ranksOf_mono (b :: bs2) (j - i) i (by omega)
    have hei : i + (j - i) = j := by omega
    rw [hei] at this
    exact this
  · intro i j hi hj heq
    rcases Nat.le_total i j with hij | hji
    · have := ranks_eq_of_flat _ hs i (j - i) (by omega) (by
        have hei : i + (j - i) = j := by omega
        rw [hei]; exact heq)
      have hei : i + (j - i) = j := by omega
      rw [hei] at this
      exact this.symm
    · have := ranks_eq_of_flat _ hs j (i - j) (by omega) (by
        have hej : j + (i - j) = i := by omega
        rw [hej]; exact heq.symm)
      have hej : j + (i - j) = i := by omega
      rw [hej] at this
      exact this

/-- Witness for C4 at the concrete sorted balance list `[5, 7, 7]`:
three ranks, first rank 1, the tie-step at index 1, strict-increase
monotonicity between indices 0 and 1, and equal ranks for the tied
balances at indices 1 and 2. -/
theorem ranksOf_spec_witness :
    (ranksOf [5, 7, 7]).length = 3 ∧
    (ranksOf [5, 7, 7]).getD 0 0 = 1 ∧
    (ranksOf [5, 7, 7]).getD 2 0 =
      (if ([5, 7, 7] : List Nat).getD 1 0 < ([5, 7, 7] : List Nat).getD 2 0
        then (ranksOf [5, 7, 7]).getD 1 0 + 1 else (ranksOf [5, 7, 7]).getD 1 0) ∧
    (ranksOf [5, 7, 7]).getD 0 0 ≤ (ranksOf [5, 7, 7]).getD 1 0 ∧
    (ranksOf [5, 7, 7]).getD 1 0 = (ranksOf [5, 7, 7]).getD 2 0 := by
  have hsorted : ∀ i, i + 1 < ([5, 7, 7] : List Nat).length →
      ([5, 7, 7] : List Nat).getD i 0 ≤ ([5, 7, 7] : List Nat).getD (i + 1) 0 := by
    intro i h
    match i with
    | 0 => decide
    | 1 => decide
    | k + 2 => exact absurd h (by simp)
  have h := ranksOf_spec [5, 7, 7] (by decide)
  exact ⟨h.1, h.2.1, h.2.2.1 1 (by decide),
    (h.2.2.2 hsorted).1 0 1 (by decide) (by decide) (by decide),
    (h.2.2.2 hsorted).2 1 2 (by decide) (by decide) (by decide)⟩

/-! ### C2, C6, C7 — dividend distribution -/

theorem creditedVBC_congr (cfg : DivCfg) (A B C : Nat) (s s2 : Store)
    (h : ∀ a, (lookupAcct a s2).isSome = (lookupAcct a s).isSome) :
    ∀ table, creditedVBC cfg A B C s2 table = creditedVBC cfg A B C s table := by
  intro table
  induction table with
  | nil => rfl
  | cons v table ih =>
    simp only [creditedVBC, List.filterMap_cons] at ih ⊢
    rw [h v.1, ih]

theorem dividend_fold_actVBC (cfg : DivCfg) (A B C : Nat) :
    ∀ (table : List (Addr × Nat × Nat)) (s : Store) (t1 t2 : Nat), t2 < U64 →
      (table.foldl (dividend_account cfg A B C) (s, t1, t2)).2.2
        = (t2 + (creditedVBC cfg A B C s table).sum) % U64 := by
  intro table
  induction table with
  | nil =>
    intro s t1 t2 ht2
    simp only [List.foldl_nil, creditedVBC, List.filterMap_nil, List.sum_nil,
      Nat.add_zero]
    exact (Nat.mod_eq_of_lt ht2).symm
  | cons v table ih =>
    intro s t1 t2 ht2
    rw [List.foldl_cons]
    cases hlook : lookupAcct v.1 s with
    | none =>
      have hstep : dividend_account cfg A B C (s, t1, t2) v = (s, t1, t2) := by
        simp only [dividend_account, hlook]
      rw [hstep, ih s t1 t2 ht2]
      simp only [creditedVBC, List.filterMap_cons, hlook]
      simp
    | some sle =>
      by_cases hdust : cfg.systemCurrencyParts ≤ divVBCOf A B C v.2
      · have hstep : dividend_account cfg A B C (s, t1, t2) v =
            (updateStore s v.1
              { sle with
                balanceVBC := (sle.balanceVBC + divVBCOf A B C v.2) % U64,
                balance := (sle.balance + sle.balanceVBC * cfg.vrpIncreaseRate % U64) % U64 },
             (t1 + sle.balanceVBC * cfg.vrpIncreaseRate % U64) % U64,
             (t2 + divVBCOf A B C v.2) % U64) := by
          simp only [dividend_account, hlook, if_pos hdust]
        rw [hstep, ih _ _ _ (Nat.mod_lt _ U64_pos)]
        rw [creditedVBC_congr cfg A B C s _
          (fun a => lookupAcct_updateStore_isSome s v.1 a _) table]
        have hcons : creditedVBC cfg A B C s (v :: table)
            = divVBCOf A B C v.2 :: creditedVBC cfg A B C s table := by
          simp only [creditedVBC, List.filterMap_cons]
          rw [if_pos ⟨by rw [hlook]; rfl, hdust⟩]
        rw [hcons, List.sum_cons, Nat.mod_add_mod]
        congr 1
        omega
      · have hstep : dividend_account cfg A B C (s, t1, t2) v =
            (updateStore s v.1
              { sle with
                balanceVBC := sle.balanceVBC,
                balance := (sle.balance + sle.balanceVBC * cfg.vrpIncreaseRate % U64) % U64 },
             (t1 + sle.balanceVBC * cfg.vrpIncreaseRate % U64) % U64, t2) := by
          simp only [dividend_account, hlook, if_neg hdust]
        rw [hstep, ih _ _ _ ht2]
        rw [creditedVBC_congr cfg A B C s _
          (fun a => lookupAcct_updateStore_isSome s v.1 a _) table]
        have hcons : creditedVBC cfg A B C s (v :: table)
            = creditedVBC cfg A B C s table := by
          simp only [creditedVBC, List.filterMap_cons]
          rw [if_neg (fun hc => hdust hc.2)]
        rw [hcons]

/-- Store for the C2 counterexample: a root account (address 1) with
three referred children of secondary balance 100 each. -/
def cxStore : Store :=
  [(1, ⟨0, [2, 3, 4], 0, 0⟩), (2, ⟨1, [], 100, 0⟩),
   (3, ⟨1, [], 100, 0⟩), (4, ⟨1, [], 100, 0⟩)]

/-- C2 counterexample: a full dividend application (account scan, power
pass, rank pass, distribution) over `cxStore` with pool
`totalPoolVBC = 10^9` credits a secondary total of `1519999997 >
10^9`: `actualSecondaryTotal <= totalPoolVBC` is false.  (The root's
power-share numerator `powerMetric = 204` exceeds its contribution
`maxChildMetric = 100` to the denominator, so its power share alone
exceeds the power half of the pool.) -/
theorem dividend_conservation_counterexample :
    (applyDividend ⟨1000000, 10⟩ 1000000000 cxStore).map (fun r => r.2.2)
      = some 1519999997 ∧ 1000000000 < 1519999997 :=
  ⟨by decide, by decide⟩

/-- C2 amended: the accumulated `actualTotalDividendVBC` of a dividend
run equals (modulo `2^64`, the `uint64_t` accumulator width) the sum of
exactly those per-account secondary payouts that were actually credited
— those at or above the dust threshold with the account present; the
bound `actualSecondaryTotal <= totalPoolVBC` of the original claim does
not hold in general (see the counterexample). -/
theorem dividend_actVBC_eq_credited_sum (cfg : DivCfg) (A B C : Nat)
    (table : List (Addr × Nat × Nat)) (s : Store) :
    (table.foldl (dividend_account cfg A B C) (s, 0, 0)).2.2
      = (creditedVBC cfg A B C s table).sum % U64 := by
  simpa using dividend_fold_actVBC cfg A B C table s 0 0 U64_pos

/-- C6: the dust threshold.  For an account present in the store, a
secondary payout below `SYSTEM_CURRENCY_PARTS` leaves both the
account's secondary balance and the running secondary total untouched
(dropped entirely, not carried over); a payout at or above it credits
the balance by exactly `divVBC` and adds exactly `divVBC` to the
running secondary total. -/
theorem dividend_dust_spec (cfg : DivCfg) (A B C : Nat) (s : Store) (t1 t2 : Nat)
    (v : Addr × Nat × Nat) (sle : AccountData) (h : lookupAcct v.1 s = some sle) :
    (divVBCOf A B C v.2 < cfg.systemCurrencyParts →
      (dividend_account cfg A B C (s, t1, t2) v).2.2 = t2 ∧
      (lookupAcct v.1 (dividend_account cfg A B C (s, t1, t2) v).1).map
        AccountData.balanceVBC = some sle.balanceVBC) ∧
    (cfg.systemCurrencyParts ≤ divVBCOf A B C v.2 →
      (dividend_account cfg A B C (s, t1, t2) v).2.2
        = (t2 + divVBCOf A B C v.2) % U64 ∧
      (lookupAcct v.1 (dividend_account cfg A B C (s, t1, t2) v).1).map
        AccountData.balanceVBC
        = some ((sle.balanceVBC + divVBCOf A B C v.2) % U64)) := by
  constructor
  · intro hd
    have hnd : ¬cfg.systemCurrencyParts ≤ divVBCOf A B C v.2 := Nat.not_le.mpr hd
    constructor
    · simp only [dividend_account, h, if_neg hnd]
    · simp only [dividend_account, h, if_neg hnd]
      rw [lookupAcct_updateStore, if_pos rfl, h]
      rfl
  · intro hd
    constructor
    · simp only [dividend_account, h, if_pos hd]
    · simp only [dividend_account, h, if_pos hd]
      rw [lookupAcct_updateStore, if_pos rfl, h]
      rfl

/-- Witness for C6 at concrete inputs (payout `divVBC = 100`): with
dust threshold 200 the account's secondary balance 3 and the secondary
total 0 are unchanged; with dust threshold 10 the balance becomes
`(3 + 100) % 2^64` and the total `(0 + 100) % 2^64`. -/
theorem dividend_dust_spec_witness :
    ((dividend_account ⟨200, 0⟩ 100 1 1 ([(7, ⟨0, [], 3, 50⟩)], 0, 0) (7, 1, 1)).2.2 = 0 ∧
      (lookupAcct 7 (dividend_account ⟨200, 0⟩ 100 1 1
        ([(7, ⟨0, [], 3, 50⟩)], 0, 0) (7, 1, 1)).1).map AccountData.balanceVBC
        = some 3) ∧
    ((dividend_account ⟨10, 0⟩ 100 1 1 ([(7, ⟨0, [], 3, 50⟩)], 0, 0) (7, 1, 1)).2.2
        = (0 + divVBCOf 100 1 1 (1, 1)) % U64 ∧
      (lookupAcct 7 (dividend_account ⟨10, 0⟩ 100 1 1
        ([(7, ⟨0, [], 3, 50⟩)], 0, 0) (7, 1, 1)).1).map AccountData.balanceVBC
        = some ((3 + divVBCOf 100 1 1 (1, 1)) % U64)) :=
  ⟨(dividend_dust_spec ⟨200, 0⟩ 100 1 1 [(7, ⟨0, [], 3, 50⟩)] 0 0 (7, 1, 1)
      ⟨0, [], 3, 50⟩ (by decide)).1 (by decide),
   (dividend_dust_spec ⟨10, 0⟩ 100 1 1 [(7, ⟨0, [], 3, 50⟩)] 0 0 (7, 1, 1)
      ⟨0, [], 3, 50⟩ (by decide)).2 (by decide)⟩

/-- C7: the primary payout.  For an account present in the store, the
primary payout `prevBalanceVBC * VRP_INCREASE_RATE` — computed from the
secondary balance as it was before this transaction's secondary credit
— is always credited to the primary balance and always added to
`actualTotalDividend`, with no threshold and regardless of whether the
secondary payout was credited or dropped. -/
theorem dividend_primary_spec (cfg : DivCfg) (A B C : Nat) (s : Store) (t1 t2 : Nat)
    (v : Addr × Nat × Nat) (sle : AccountData) (h : lookupAcct v.1 s = some sle) :
    (dividend_account cfg A B C (s, t1, t2) v).2.1
      = (t1 + sle.balanceVBC * cfg.vrpIncreaseRate % U64) % U64 ∧
    (lookupAcct v.1 (dividend_account cfg A B C (s, t1, t2) v).1).map
      AccountData.balance
      = some ((sle.balance + sle.balanceVBC * cfg.vrpIncreaseRate % U64) % U64) := by
  constructor
  · simp only [dividend_account, h]
  · simp only [dividend_account, h]
    rw [lookupAcct_updateStore, if_pos rfl, h]
    rfl

/-- Witness for C7 at concrete inputs: rate 2, pre-credit secondary
balance 3 — the primary balance 50 becomes `(50 + 6) % 2^64` and the
primary total accumulates 6, in a configuration (dust threshold 10,
payout 100) in which the secondary payout is also credited. -/
theorem dividend_primary_spec_witness :
    (dividend_account ⟨10, 2⟩ 100 1 1 ([(7, ⟨0, [], 3, 50⟩)], 0, 0) (7, 1, 1)).2.1
      = (0 + 3 * 2 % U64) % U64 ∧
    (lookupAcct 7 (dividend_account ⟨10, 2⟩ 100 1 1
      ([(7, ⟨0, [], 3, 50⟩)], 0, 0) (7, 1, 1)).1).map AccountData.balance
      = some ((50 + 3 * 2 % U64) % U64) :=
  dividend_primary_spec ⟨10, 2⟩ 100 1 1 [(7, ⟨0, [], 3, 50⟩)] 0 0 (7, 1, 1)
    ⟨0, [], 3, 50⟩ (by decide)

/-! ### C8 — overflow behaviour -/

/-- Store exhibiting `uint64_t` overflow in `getPower`: a root with two
children holding `2^63` secondary units each. -/
def ovStore : Store :=
  [(1, ⟨0, [2, 3], 0, 0⟩), (2, ⟨1, [], 2 ^ 63, 0⟩), (3, ⟨1, [], 2 ^ 63, 0⟩)]

/-- C8 evaluated at its failing input: the subtree sum `2^63 + 2^63 =
2^64` of the root of `ovStore` wraps to `0` in the memoized power pair,
and the dividend application on this store still completes (is not
rejected): overflow is silently wrapped modulo `2^64`, never treated as
an error. -/
theorem overflow_wraps_silently :
    (getPower ovStore 4 1 emptyMemo).1 1 = some ((2 ^ 63 + 2 ^ 63) % U64, 2 ^ 63) ∧
    (2 ^ 63 + 2 ^ 63) % U64 = 0 ∧
    (applyDividend ⟨1000000, 10⟩ 1000 ovStore).isSome = true :=
  ⟨by decide, by decide, by decide⟩

/-! ### C10 — dividend preconditions -/

/-- Witness for C1's amended theorem at concrete inputs: account 1's
referee (set to 2 by the first transaction of the cycle scenario)
survives the second transaction unchanged, and in the resulting store
the referrer of account 1 is unique. -/
theorem referral_relation_amended_witness :
    (∃ d2, lookupAcct 1 (applyOps [(1, 2)] (addReferee 2 1 s0Init).2) = some d2 ∧
      d2.referee = (2 : Addr)) ∧
    (refereeEdge (applyOps [(1, 2)] (addReferee 2 1 s0Init).2) 2 1 →
      refereeEdge (applyOps [(1, 2)] (addReferee 2 1 s0Init).2) 2 1 → (2 : Addr) = 2) := by
  constructor
  · have h := referral_relation_amended.1 [(1, 2)] (addReferee 2 1 s0Init).2 1
      ⟨2, [], 0, 0⟩ (by decide) (by decide)
    simpa using h
  · exact referral_relation_amended.2 _ 2 2 1
